import Mathlib

/-!
Shallow embedding of `luigi/contrib/hdfs/config.py`.

The module has three functions with logic: `load_hadoop_cmd`,
`get_configured_hdfs_client` and `tmppath`.  They read ambient state
(luigi configuration, `six.PY3`, `getpass.getuser()`, `uuid4().hex`);
the embedding passes that state explicitly as parameters.

The Python standard-library helpers used by `tmppath` are embedded as
well, following their CPython (3.9+) definitions on clean inputs:
`urllib.parse.urlsplit` / `urlparse` / `urlunsplit` / `urlunparse`,
`posixpath.join` (two arguments), `str.lstrip('/')`, `str.startswith`,
`str.split()` with no arguments.
-/

/-- Python's `str.split()` whitespace set (ASCII part): space, tab,
newline, carriage return, vertical tab, form feed. -/
def isPySpace (c : Char) : Bool :=
  c == ' ' || c == '\t' || c == '\n' || c == '\r' || c == '\x0b' || c == '\x0c'

/-- Accumulator pass of Python's `str.split()` with no arguments.
`acc` is the current (reversed) token being built. -/
def pySplitAux : List Char → List Char → List (List Char)
  | [], acc => if acc.isEmpty then [] else [acc.reverse]
  | c :: rest, acc =>
    if isPySpace c then
      if acc.isEmpty then pySplitAux rest []
      else acc.reverse :: pySplitAux rest []
    else pySplitAux rest (c :: acc)

/-- Python `s.split()` with no arguments: split on runs of whitespace,
discarding leading/trailing whitespace, producing no empty tokens. -/
def pySplit (s : String) : List String :=
  (pySplitAux s.data []).map (fun l => ⟨l⟩)

/-- The `[hadoopcli]` configuration section (`class hadoopcli(luigi.Config)`). -/
structure hadoopcliConf where
  command : String
  version : String

/-- Embedding of `def load_hadoop_cmd(): return hadoopcli().command.split()` -/
def load_hadoop_cmd (conf : hadoopcliConf) : List String :=
  pySplit conf.command

/-- The `[hdfs]` configuration section (`class hdfs(luigi.Config)`).
Only the fields read by the embedded functions are kept; the remaining
fields (`client_version`, `effective_user`, `snakebite_autoconfig`,
`namenode_host`, `namenode_port`) are declarative parameter metadata
never read by the functions modelled here. -/
structure hdfsConf where
  client : String
  tmp_dir : Option String

/-- The list `conf_usinf_snakebite` from `get_configured_hdfs_client`. -/
def conf_usinf_snakebite : List String :=
  ["snakebite_with_hadoopcli_fallback", "snakebite"]

/-- Embedding of `get_configured_hdfs_client()`.  `py3` stands for `six.PY3`.  The
result pairs the returned client string with the number of warnings
emitted by `warnings.warn` (the function never raises). -/
def get_configured_hdfs_client (conf : hdfsConf) (py3 : Bool) : String × Nat :=
  if py3 && conf_usinf_snakebite.contains conf.client then
    ("hadoopcli", 1)
  else
    (conf.client, 0)

/-- Result record of `urllib.parse.urlparse` / `urlsplit`. -/
structure ParseResult where
  scheme : String
  netloc : String
  path : String
  params : String
  query : String
  fragment : String

/-- The characters allowed in a URL scheme (`scheme_chars` in CPython). -/
def isSchemeChar (c : Char) : Bool :=
  c.isAlpha || c.isDigit || c == '+' || c == '-' || c == '.'

/-- Split a character list at the first occurrence of `sep`
(Python `s.split(sep, 1)` / `s.find(sep)` when it succeeds). -/
def splitOnFirstChar (sep : Char) : List Char → Option (List Char × List Char)
  | [] => none
  | c :: rest =>
    if c == sep then some ([], rest)
    else
      match splitOnFirstChar sep rest with
      | none => none
      | some (a, b) => some (c :: a, b)

/-- Split a character list at the last occurrence of `sep`
(Python `s.rfind(sep)` when it succeeds). -/
def splitOnLastChar (sep : Char) : List Char → Option (List Char × List Char)
  | [] => none
  | c :: rest =>
    match splitOnLastChar sep rest with
    | some (a, b) => some (c :: a, b)
    | none => if c == sep then some ([], rest) else none

/-- A character that ends the netloc part (`_splitnetloc` stops at the
first of `/`, `?`, `#`). -/
def notNetlocDelim (c : Char) : Bool :=
  !(c == '/' || c == '?' || c == '#')

/-- Model of `urllib.parse.urlsplit` (CPython 3.9+, default arguments): detect a
scheme (first `:` preceded only by scheme characters starting with an
ASCII letter), a `//...` netloc (rejecting unbalanced square brackets),
then split off fragment and query. -/
def urlsplit (url : String) : Except String ParseResult :=
  let l := url.data
  let pre := l.takeWhile (fun c => !(c == ':'))
  let hasScheme :=
    decide (pre.length < l.length) && !pre.isEmpty &&
      (match l.head? with
       | some c => c.isAlpha
       | none => false) &&
      pre.all isSchemeChar
  let scheme := if hasScheme then pre.map Char.toLower else []
  let l := if hasScheme then l.drop (pre.length + 1) else l
  let hasNetloc := l.take 2 == ['/', '/']
  let netloc := if hasNetloc then (l.drop 2).takeWhile notNetlocDelim else []
  let l := if hasNetloc then (l.drop 2).dropWhile notNetlocDelim else l
  if hasNetloc && (netloc.contains '[' != netloc.contains ']') then
    .error "Invalid IPv6 URL"
  else
    let (l, fragment) :=
      match splitOnFirstChar '#' l with
      | some (a, b) => (a, b)
      | none => (l, [])
    let (l, query) :=
      match splitOnFirstChar '?' l with
      | some (a, b) => (a, b)
      | none => (l, [])
    .ok { scheme := ⟨scheme⟩, netloc := ⟨netloc⟩, path := ⟨l⟩,
          params := "", query := ⟨query⟩, fragment := ⟨fragment⟩ }

/-- The schemes for which `urlparse` splits `;params` off the path. -/
def uses_params : List String :=
  ["", "ftp", "hdl", "prospero", "http", "imap", "https", "shttp",
   "rtsp", "rtspu", "sip", "sips", "mms", "sftp", "tel"]

/-- Model of `urllib.parse._splitparams`: split `;params` off the part of the
path after the last `/` (or off the whole path when it has no `/`). -/
def splitparams (p : List Char) : List Char × List Char :=
  match splitOnLastChar '/' p with
  | some (before, after) =>
    match splitOnFirstChar ';' after with
    | some (x, y) => (before ++ '/' :: x, y)
    | none => (p, [])
  | none =>
    match splitOnFirstChar ';' p with
    | some (x, y) => (x, y)
    | none => (p, [])

/-- Model of `urllib.parse.urlparse` (default arguments). -/
def urlparse (url : String) : Except String ParseResult := do
  let r ← urlsplit url
  if uses_params.contains r.scheme && r.path.data.contains ';' then
    let (p, ps) := splitparams r.path.data
    pure { r with path := ⟨p⟩, params := ⟨ps⟩ }
  else
    pure r

/-- Model of `urllib.parse.urlunsplit`. -/
def urlunsplit (scheme netloc url query fragment : String) : String :=
  let u := url.data
  let u :=
    if !netloc.data.isEmpty || u.take 2 == ['/', '/'] then
      let u := if !u.isEmpty && !(u.take 1 == ['/']) then '/' :: u else u
      '/' :: '/' :: (netloc.data ++ u)
    else u
  let u := if !scheme.data.isEmpty then scheme.data ++ ':' :: u else u
  let u := if !query.data.isEmpty then u ++ '?' :: query.data else u
  let u := if !fragment.data.isEmpty then u ++ '#' :: fragment.data else u
  ⟨u⟩

/-- Model of `urllib.parse.urlunparse`. -/
def urlunparse (scheme netloc url params query fragment : String) : String :=
  let u := if !params.data.isEmpty then url ++ ";" ++ params else url
  urlunsplit scheme netloc u query fragment

/-- Model of `posixpath.join(a, b)` for exactly two components. -/
def posixJoin (a b : String) : String :=
  if b.data.head? == some '/' then b
  else if a.data.isEmpty || a.data.getLast? == some '/' then ⟨a.data ++ b.data⟩
  else ⟨a.data ++ '/' :: b.data⟩

/-- Python `s.lstrip('/')`: drop every leading `/`. -/
def lstripSlash (s : String) : String := ⟨s.data.dropWhile (fun c => c == '/')⟩

/-- Prefix test on character lists (Python `str.startswith`). -/
def isStartOf : List Char → List Char → Bool
  | [], _ => true
  | _ :: _, [] => false
  | p :: ps, c :: cs => p == c && isStartOf ps cs

/-- Python `s.startswith(pre)`. -/
def pyStartswith (s pre : String) : Bool := isStartOf pre.data s.data

/-- Step 1 of `tmppath`: the `base_dir` local variable.  `temp_dir` is
the literal `'/tmp'`; the configured `tmp_dir` wins when it is set,
otherwise a present target path contributes its scheme and netloc via
`urlunparse((scheme, netloc, '/tmp', '', '', ''))`. -/
def tmppath_base_dir (conf : hdfsConf) (path : Option String) : Except String String :=
  match conf.tmp_dir with
  | some t => .ok t
  | none =>
    match path with
    | some p => do
        let parsed ← urlparse p
        pure (urlunparse parsed.scheme parsed.netloc "/tmp" "" "" "")
    | none => .ok "/tmp"

/-- Step 2 of `tmppath`: the `subdir` local variable before the
username join.  A target starting with the literal `"/tmp/"` has only
`"/tmp"` (4 characters) stripped; otherwise the target's parsed path
component is used; a leading `/` is stripped and `-` appended. -/
def tmppath_subdir (path : Option String) : Except String String :=
  match path with
  | some p =>
    if pyStartswith p "/tmp/" then
      .ok (lstripSlash ⟨p.data.drop 4⟩ ++ "-")
    else do
      let parsed ← urlparse p
      pure (lstripSlash parsed.path ++ "-")
  | none => .ok ""

/-- Embedding of `tmppath(path, include_unix_username)`.  `user` stands for
`getpass.getuser()` and `uuid_hex` for `uuid4().hex`, both read from the
environment by the Python code. -/
def tmppath (conf : hdfsConf) (path : Option String) (include_unix_username : Bool)
    (user uuid_hex : String) : Except String String := do
  let addon := "luigitemp-" ++ uuid_hex
  let base_dir ← tmppath_base_dir conf path
  let subdir ← tmppath_subdir path
  let subdir := if include_unix_username then posixJoin user subdir else subdir
  pure (posixJoin base_dir (subdir ++ addon))

/-- Split a character list on `/` into its path components. -/
def splitSlash : List Char → List (List Char)
  | [] => [[]]
  | c :: rest =>
    if c == '/' then [] :: splitSlash rest
    else
      match splitSlash rest with
      | [] => [[c]]
      | h :: t => (c :: h) :: t

/-- Claim C8: `load_hadoop_cmd` splits the configured command on
whitespace with no shell-quoting semantics; on
`"hadoop --config /etc/hadoop"` it returns exactly
`["hadoop", "--config", "/etc/hadoop"]`. -/
theorem load_hadoop_cmd_splits_on_whitespace :
    load_hadoop_cmd ⟨"hadoop --config /etc/hadoop", "cdh4"⟩ =
      ["hadoop", "--config", "/etc/hadoop"] := by
  rfl

/-- Claim C4: for target `"/tmp/foo"` the subdirectory computed by
`tmppath` is `"foo-"` (only the `"/tmp"` prefix is stripped, the
leading `/` removed and `-` appended), not `"tmp/foo-"`. -/
theorem tmppath_subdir_tmp_foo :
    tmppath_subdir (some "/tmp/foo") = .ok "foo-" ∧
      tmppath_subdir (some "/tmp/foo") ≠ .ok "tmp/foo-" := by
  refine ⟨rfl, ?_⟩
  intro h
  rw [show tmppath_subdir (some "/tmp/foo") = .ok "foo-" from rfl] at h
  injection h with h'
  exact absurd h' (by decide)

/-- Claim C5: whenever the `tmp_dir` configuration override is set, it
is used verbatim as the base directory for every input path; in
particular with `tmp_dir = "/custom"` the base directory is `"/custom"`
regardless of the target's scheme and authority. -/
theorem tmppath_base_dir_override :
    (∀ (cl t : String) (path : Option String),
        tmppath_base_dir ⟨cl, some t⟩ path = .ok t) ∧
      (∀ (cl : String) (path : Option String),
        tmppath_base_dir ⟨cl, some "/custom"⟩ path = .ok "/custom") := by
  exact ⟨fun _ _ _ => rfl, fun _ _ => rfl⟩

theorem strMk_congr {a b : List Char} (h : a = b) : (⟨a⟩ : String) = ⟨b⟩ := by
  rw [h]

theorem string_eq_of_data {a b : String} (h : a.data = b.data) : a = b := by
  cases a; cases b; exact congrArg String.mk h

/-- The head surviving `dropWhile p` does not satisfy `p`. -/
theorem dropWhile_head_false (p : Char → Bool) :
    ∀ (l : List Char) (x : Char), (l.dropWhile p).head? = some x → p x = false := by
  intro l
  induction l with
  | nil => intro x h; simp [List.dropWhile] at h
  | cons c rest ih =>
    intro x h
    by_cases hc : p c
    · rw [List.dropWhile_cons_of_pos hc] at h
      exact ih x h
    · rw [List.dropWhile_cons_of_neg hc] at h
      simp at h
      rw [← h]
      simpa using hc

/-- Evaluation of `posixJoin` when the right part is not absolute and the left part is
nonempty without a trailing slash: a separator is inserted. -/
theorem posixJoin_sep (a b : String) (ha : a.data ≠ [])
    (ha2 : a.data.getLast? ≠ some '/') (hb : b.data.head? ≠ some '/') :
    posixJoin a b = ⟨a.data ++ '/' :: b.data⟩ := by
  unfold posixJoin
  simp [hb, ha, ha2]

/-- Evaluation of `posixJoin` when the right part is absolute: the left is discarded. -/
theorem posixJoin_abs (a b : String) (hb : b.data.head? = some '/') :
    posixJoin a b = b := by
  unfold posixJoin
  simp [hb]

/-- Evaluation of `posixJoin` when the left part is empty or ends with a slash:
plain concatenation. -/
theorem posixJoin_concat (a b : String)
    (ha : a.data = [] ∨ a.data.getLast? = some '/')
    (hb : b.data.head? ≠ some '/') :
    posixJoin a b = ⟨a.data ++ b.data⟩ := by
  unfold posixJoin
  rcases ha with ha | ha <;> simp [hb, ha]

/-- Evaluation of `tmppath` once base directory and subdirectory are
known. -/
theorem tmppath_eval (conf : hdfsConf) (path : Option String) (incl : Bool)
    (user hex b s : String) (hb : tmppath_base_dir conf path = .ok b)
    (hs : tmppath_subdir path = .ok s) :
    tmppath conf path incl user hex =
      .ok (posixJoin b ((if incl then posixJoin user s else s) ++
        ("luigitemp-" ++ hex))) := by
  unfold tmppath
  rw [hb, hs]
  rfl

/-- Claim C7: `get_configured_hdfs_client` returns `"hadoopcli"` (with
one warning) exactly when the configured client is in the snakebite set
and the runtime generation is incompatible (`six.PY3`); in every other
case, including unrecognized client strings, the configured value is
returned unchanged with no warning, and no exception is possible. -/
theorem get_configured_hdfs_client_fallback :
    (∀ conf : hdfsConf, conf.client ∈ conf_usinf_snakebite →
        get_configured_hdfs_client conf true = ("hadoopcli", 1)) ∧
      (∀ (conf : hdfsConf) (py3 : Bool), conf.client ∉ conf_usinf_snakebite →
        get_configured_hdfs_client conf py3 = (conf.client, 0)) ∧
      (∀ conf : hdfsConf, get_configured_hdfs_client conf false = (conf.client, 0)) := by
  refine ⟨?_, ?_, ?_⟩
  · intro conf h
    simp [get_configured_hdfs_client, h]
  · intro conf py3 h
    simp [get_configured_hdfs_client, h]
  · intro conf
    simp [get_configured_hdfs_client]

/-- Witness for C7 at concrete inputs from both branches. -/
theorem get_configured_hdfs_client_fallback_witness :
    get_configured_hdfs_client ⟨"snakebite", none⟩ true = ("hadoopcli", 1) ∧
      get_configured_hdfs_client ⟨"webhdfs", none⟩ true = ("webhdfs", 0) := by
  exact ⟨get_configured_hdfs_client_fallback.1 ⟨"snakebite", none⟩ (by simp [conf_usinf_snakebite]),
    get_configured_hdfs_client_fallback.2.1 ⟨"webhdfs", none⟩ true (by simp [conf_usinf_snakebite])⟩

/-- Every token produced by `pySplitAux` is nonempty. -/
theorem pySplitAux_ne_nil :
    ∀ (l acc : List Char), ∀ t ∈ pySplitAux l acc, t ≠ [] := by
  intro l
  induction l with
  | nil =>
    intro acc t ht
    by_cases ha : acc.isEmpty
    · simp [pySplitAux, ha] at ht
    · simp [pySplitAux, ha] at ht
      subst ht
      simp only [List.isEmpty_iff] at ha
      simpa using ha
  | cons c rest ih =>
    intro acc t ht
    by_cases hc : isPySpace c
    · by_cases ha : acc.isEmpty
      · rw [pySplitAux, if_pos hc, if_pos ha] at ht
        exact ih [] t ht
      · rw [pySplitAux, if_pos hc, if_neg ha] at ht
        rcases List.mem_cons.mp ht with h | h
        · subst h
          simp only [List.isEmpty_iff] at ha
          simpa using ha
        · exact ih [] t h
    · rw [pySplitAux, if_neg hc] at ht
      exact ih (c :: acc) t ht

/-- Running `pySplitAux` on all-whitespace input emits only the pending token. -/
theorem pySplitAux_all_space :
    ∀ (l acc : List Char), (∀ c ∈ l, isPySpace c = true) →
      pySplitAux l acc = if acc.isEmpty then [] else [acc.reverse] := by
  intro l
  induction l with
  | nil => intro acc _; rfl
  | cons c rest ih =>
    intro acc h
    have hc : isPySpace c = true := h c (List.mem_cons_self c rest)
    have hrest : ∀ x ∈ rest, isPySpace x = true := fun x hx => h x (List.mem_cons_of_mem c hx)
    by_cases ha : acc.isEmpty
    · rw [pySplitAux, if_pos hc, if_pos ha, ih [] hrest, if_pos ha]
      rfl
    · rw [pySplitAux, if_pos hc, if_neg ha, ih [] hrest, if_neg ha]
      rfl

/-- Claim C10: `load_hadoop_cmd` is total, a command that is empty or
all whitespace yields `[]`, and every returned token is nonempty
(whitespace runs are collapsed, never producing empty tokens). -/
theorem load_hadoop_cmd_no_empty_tokens (ver cmd : String) :
    ((∀ c ∈ cmd.data, isPySpace c = true) → load_hadoop_cmd ⟨cmd, ver⟩ = []) ∧
      (∀ t ∈ load_hadoop_cmd ⟨cmd, ver⟩, t ≠ "") := by
  constructor
  · intro h
    unfold load_hadoop_cmd pySplit
    rw [pySplitAux_all_space cmd.data [] h]
    rfl
  · intro t ht
    unfold load_hadoop_cmd pySplit at ht
    rcases List.mem_map.mp ht with ⟨l, hl, rfl⟩
    have := pySplitAux_ne_nil cmd.data [] l hl
    intro hcontra
    apply this
    have : (⟨l⟩ : String).data = ("" : String).data := by rw [hcontra]
    simpa using this

/-- Witness for C10: the all-whitespace case and a concrete token. -/
theorem load_hadoop_cmd_no_empty_tokens_witness :
    load_hadoop_cmd ⟨" \t ", "cdh4"⟩ = [] ∧ ("hadoop" : String) ≠ "" := by
  exact ⟨(load_hadoop_cmd_no_empty_tokens "cdh4" " \t ").1 (by decide),
    (load_hadoop_cmd_no_empty_tokens "cdh4" "hadoop").2 "hadoop" (by simp [load_hadoop_cmd, pySplit, pySplitAux, isPySpace])⟩

/-- Claim C1: with no `tmp_dir` override and `include_unix_username`,
`tmppath("hdfs://nn:8020/a/b/c")` is exactly
`hdfs://nn:8020/tmp/<user>/a/b/c-` followed by the random suffix: the
base keeps the target's scheme and netloc with fixed path `/tmp`, and
the subdirectory is the target's path with leading `/` stripped and a
trailing `-`. -/
theorem tmppath_hdfs_target (user hex : String) (h1 : user.data ≠ [])
    (h2 : user.data.head? ≠ some '/') (h3 : user.data.getLast? ≠ some '/') :
    tmppath ⟨"hadoopcli", none⟩ (some "hdfs://nn:8020/a/b/c") true user hex =
      .ok ("hdfs://nn:8020/tmp/" ++ user ++ "/a/b/c-" ++ ("luigitemp-" ++ hex)) := by
  have hb : tmppath_base_dir ⟨"hadoopcli", none⟩ (some "hdfs://nn:8020/a/b/c") =
      .ok "hdfs://nn:8020/tmp" := rfl
  have hs : tmppath_subdir (some "hdfs://nn:8020/a/b/c") = .ok "a/b/c-" := rfl
  rw [tmppath_eval _ _ _ _ _ _ _ hb hs]
  simp only [eq_self_iff_true, if_true]
  rw [posixJoin_sep user "a/b/c-" h1 h3 (by decide)]
  have hhead : ((⟨user.data ++ '/' :: ("a/b/c-" : String).data⟩ : String) ++
      ("luigitemp-" ++ hex)).data.head? ≠ some '/' := by
    rw [String.data_append]
    rw [List.head?_append_of_ne_nil _ (by simp [h1])]
    rw [List.head?_append_of_ne_nil _ h1]
    exact h2
  rw [posixJoin_sep _ _ (by decide) (by decide) hhead]
  apply congrArg Except.ok
  apply string_eq_of_data
  have e1 : ("hdfs://nn:8020/tmp/" : String).data =
      ("hdfs://nn:8020/tmp" : String).data ++ ['/'] := rfl
  have e2 : ("/a/b/c-" : String).data = '/' :: ("a/b/c-" : String).data := rfl
  simp only [String.data_append, e1, e2]
  simp [List.append_assoc]

/-- Witness for C1 at a concrete username and token. -/
theorem tmppath_hdfs_target_witness :
    tmppath ⟨"hadoopcli", none⟩ (some "hdfs://nn:8020/a/b/c") true "alice" "ff00" =
      .ok ("hdfs://nn:8020/tmp/" ++ "alice" ++ "/a/b/c-" ++ ("luigitemp-" ++ "ff00")) :=
  tmppath_hdfs_target "alice" "ff00" (by decide) (by decide) (by decide)

/-- Joining `"-"` instead of `""` onto a user directory appends exactly
one `-` character. -/
theorem posixJoin_dash_data (user : String) :
    (posixJoin user "-").data = (posixJoin user "").data ++ ['-'] := by
  unfold posixJoin
  rw [if_neg (by decide : ¬ ((("-" : String).data.head? == some '/') = true)),
      if_neg (by decide : ¬ ((("" : String).data.head? == some '/') = true))]
  by_cases hc : (user.data.isEmpty || user.data.getLast? == some '/') = true
  · rw [if_pos hc, if_pos hc]
    show user.data ++ ['-'] = (user.data ++ []) ++ ['-']
    simp
  · rw [if_neg hc, if_neg hc]
    show user.data ++ ['/', '-'] = (user.data ++ ['/']) ++ ['-']
    simp

/-- Lemma: `posixJoin` preserves a one-character length difference of the
joined parts when their heads agree on being `/`. -/
theorem posixJoin_len_succ (B : String) (s t : List Char)
    (hiff : (s.head? == some '/') = (t.head? == some '/'))
    (hlen : s.length = t.length + 1) :
    (posixJoin B ⟨s⟩).data.length = (posixJoin B ⟨t⟩).data.length + 1 := by
  unfold posixJoin
  by_cases h : (s.head? == some '/') = true
  · rw [if_pos (show ((⟨s⟩ : String).data.head? == some '/') = true from h),
        if_pos (show ((⟨t⟩ : String).data.head? == some '/') = true from hiff ▸ h)]
    exact hlen
  · rw [if_neg (show ¬ ((⟨s⟩ : String).data.head? == some '/') = true from h),
        if_neg (show ¬ ((⟨t⟩ : String).data.head? == some '/') = true from hiff ▸ h)]
    by_cases hB : (B.data.isEmpty || B.data.getLast? == some '/') = true
    · rw [if_pos hB, if_pos hB]
      show (B.data ++ s).length = (B.data ++ t).length + 1
      simp only [List.length_append, hlen]
      omega
    · rw [if_neg hB, if_neg hB]
      show (B.data ++ '/' :: s).length = (B.data ++ '/' :: t).length + 1
      simp only [List.length_append, List.length_cons, hlen]
      omega

/-- Counterexample to Claim C2: with no override, user `alice` and
token `ff00`, the empty-string target and the absent target give
different results (a dash-prefixed leaf name versus a plain one under
`tmp/alice`). -/
theorem tmppath_empty_vs_none_counterexample :
    tmppath ⟨"hadoopcli", none⟩ (some "") true "alice" "ff00" ≠
      tmppath ⟨"hadoopcli", none⟩ none true "alice" "ff00" := by
  intro h
  rw [show tmppath ⟨"hadoopcli", none⟩ (some "") true "alice" "ff00" =
        .ok "/tmp/alice/-luigitemp-ff00" from rfl,
      show tmppath ⟨"hadoopcli", none⟩ none true "alice" "ff00" =
        .ok "/tmp/alice/luigitemp-ff00" from rfl] at h
  injection h with h'
  exact absurd h' (by decide)

/-- Claim C2 (amended): an empty-string target is treated as a present
target, not as an absent one.  The base directory is the same in both
cases for every configuration, but the subdirectory is `"-"` for the
empty string and `""` for `None`, so for every configuration, username,
token and `include_unix_username` flag the two results differ. -/
theorem tmppath_empty_vs_none (conf : hdfsConf) (incl : Bool) (user hex : String) :
    tmppath_base_dir conf (some "") = tmppath_base_dir conf none ∧
      tmppath_subdir (some "") = .ok "-" ∧ tmppath_subdir none = .ok "" ∧
      tmppath conf (some "") incl user hex ≠ tmppath conf none incl user hex := by
  have key : ∀ b : String,
      posixJoin b ((if incl then posixJoin user "-" else "-") ++ ("luigitemp-" ++ hex)) ≠
        posixJoin b ((if incl then posixJoin user "" else "") ++ ("luigitemp-" ++ hex)) := by
    intro b heq
    have hdash : (if incl then posixJoin user "-" else "-").data =
        (if incl then posixJoin user "" else "").data ++ ['-'] := by
      cases incl with
      | false => rfl
      | true => exact posixJoin_dash_data user
    have hs1 : ((if incl then posixJoin user "-" else "-") ++ ("luigitemp-" ++ hex)).data =
        ((if incl then posixJoin user "" else "").data ++ ['-']) ++ ("luigitemp-" ++ hex).data := by
      rw [String.data_append, hdash]
    have hs2 : ((if incl then posixJoin user "" else "") ++ ("luigitemp-" ++ hex)).data =
        (if incl then posixJoin user "" else "").data ++ ("luigitemp-" ++ hex).data :=
      String.data_append _ _
    have hiff : (((if incl then posixJoin user "-" else "-") ++ ("luigitemp-" ++ hex)).data.head? == some '/') =
        (((if incl then posixJoin user "" else "") ++ ("luigitemp-" ++ hex)).data.head? == some '/') := by
      rw [hs1, hs2]
      cases hj : (if incl then posixJoin user "" else "").data with
      | nil => rfl
      | cons x xs => rfl
    have hlen : ((if incl then posixJoin user "-" else "-") ++ ("luigitemp-" ++ hex)).data.length =
        ((if incl then posixJoin user "" else "") ++ ("luigitemp-" ++ hex)).data.length + 1 := by
      rw [hs1, hs2]
      simp only [List.length_append, List.length_cons, List.length_nil]
      omega
    have hL : (posixJoin b ⟨((if incl then posixJoin user "-" else "-") ++ ("luigitemp-" ++ hex)).data⟩).data.length =
        (posixJoin b ⟨((if incl then posixJoin user "" else "") ++ ("luigitemp-" ++ hex)).data⟩).data.length + 1 :=
      posixJoin_len_succ b _ _ hiff hlen
    have hEq : (posixJoin b ⟨((if incl then posixJoin user "-" else "-") ++ ("luigitemp-" ++ hex)).data⟩).data.length =
        (posixJoin b ⟨((if incl then posixJoin user "" else "") ++ ("luigitemp-" ++ hex)).data⟩).data.length :=
      congrArg (fun x => x.data.length) heq
    omega
  obtain ⟨cl, td⟩ := conf
  refine ⟨?_, rfl, rfl, ?_⟩
  · cases td <;> rfl
  · cases td with
    | none =>
      intro h
      rw [tmppath_eval ⟨cl, none⟩ (some "") incl user hex "/tmp" "-" rfl rfl,
          tmppath_eval ⟨cl, none⟩ none incl user hex "/tmp" "" rfl rfl] at h
      injection h with h'
      exact key "/tmp" h'
    | some t =>
      intro h
      rw [tmppath_eval ⟨cl, some t⟩ (some "") incl user hex t "-" rfl rfl,
          tmppath_eval ⟨cl, some t⟩ none incl user hex t "" rfl rfl] at h
      injection h with h'
      exact key t h'

/-- Appending to the joined part after a nonempty stem commutes with
`posixJoin`. -/
theorem posixJoin_append_tok (a : String) (s t : List Char) (hs : s ≠ []) :
    posixJoin a ⟨s ++ t⟩ = posixJoin a ⟨s⟩ ++ (⟨t⟩ : String) := by
  have hhd : (s ++ t).head? = s.head? := List.head?_append_of_ne_nil _ hs
  unfold posixJoin
  by_cases h : (s.head? == some '/') = true
  · rw [if_pos (show (((⟨s ++ t⟩ : String)).data.head? == some '/') = true from by
        show ((s ++ t).head? == some '/') = true
        rw [hhd]; exact h),
      if_pos (show ((⟨s⟩ : String).data.head? == some '/') = true from h)]
    rfl
  · rw [if_neg (show ¬ (((⟨s ++ t⟩ : String)).data.head? == some '/') = true from by
        show ¬ ((s ++ t).head? == some '/') = true
        rw [hhd]; exact h),
      if_neg (show ¬ ((⟨s⟩ : String).data.head? == some '/') = true from h)]
    by_cases hB : (a.data.isEmpty || a.data.getLast? == some '/') = true
    · rw [if_pos hB, if_pos hB]
      apply string_eq_of_data
      rw [String.data_append]
      show a.data ++ (s ++ t) = (a.data ++ s) ++ t
      simp [List.append_assoc]
    · rw [if_neg hB, if_neg hB]
      apply string_eq_of_data
      rw [String.data_append]
      show a.data ++ '/' :: (s ++ t) = (a.data ++ '/' :: s) ++ t
      simp [List.append_assoc]

/-- Claim C6: `tmppath` is injective in the random token: for a fixed
configuration, target, flag and username, two successful calls whose
`uuid4().hex` tokens differ return different paths, so two successive
calls (whose tokens differ with overwhelming probability) return
different results. -/
theorem tmppath_token_injective (conf : hdfsConf) (path : Option String) (incl : Bool)
    (user hex1 hex2 r1 r2 : String)
    (e1 : tmppath conf path incl user hex1 = .ok r1)
    (e2 : tmppath conf path incl user hex2 = .ok r2)
    (hne : hex1 ≠ hex2) : r1 ≠ r2 := by
  cases hb : tmppath_base_dir conf path with
  | error e =>
    have : tmppath conf path incl user hex1 = .error e := by
      unfold tmppath; rw [hb]; rfl
    rw [this] at e1
    cases e1
  | ok b =>
    cases hsd : tmppath_subdir path with
    | error e =>
      have : tmppath conf path incl user hex1 = .error e := by
        unfold tmppath; rw [hb, hsd]; rfl
      rw [this] at e1
      cases e1
    | ok s =>
      rw [tmppath_eval conf path incl user hex1 b s hb hsd] at e1
      rw [tmppath_eval conf path incl user hex2 b s hb hsd] at e2
      injection e1 with e1'
      injection e2 with e2'
      have hlui : ("luigitemp-" : String).data ≠ [] := by decide
      have key : ∀ hex : String,
          posixJoin b ((if incl then posixJoin user s else s) ++ ("luigitemp-" ++ hex)) =
            posixJoin b ⟨(if incl then posixJoin user s else s).data ++
              ("luigitemp-" : String).data⟩ ++ hex := by
        intro hex
        have hdata : ((if incl then posixJoin user s else s) ++ ("luigitemp-" ++ hex)).data =
            ((if incl then posixJoin user s else s).data ++
              ("luigitemp-" : String).data) ++ hex.data := by
          rw [String.data_append, String.data_append]
          simp [List.append_assoc]
        have h1 : (if incl then posixJoin user s else s) ++ ("luigitemp-" ++ hex) =
            ⟨((if incl then posixJoin user s else s).data ++
              ("luigitemp-" : String).data) ++ hex.data⟩ :=
          string_eq_of_data (by rw [hdata])
        rw [h1, posixJoin_append_tok b _ _
          (fun hcontra => hlui (List.append_eq_nil.mp hcontra).2)]
      rw [key hex1] at e1'
      rw [key hex2] at e2'
      rw [← e1', ← e2']
      intro h
      apply hne
      have hd := congrArg String.data h
      rw [String.data_append, String.data_append] at hd
      exact string_eq_of_data (List.append_cancel_left hd)

/-- Witness for C6 at concrete tokens `aaaa` and `bbbb`. -/
theorem tmppath_token_injective_witness :
    ("/tmp/alice/a-luigitemp-aaaa" : String) ≠ "/tmp/alice/a-luigitemp-bbbb" :=
  tmppath_token_injective ⟨"hadoopcli", none⟩ (some "/a") true "alice" "aaaa" "bbbb"
    "/tmp/alice/a-luigitemp-aaaa" "/tmp/alice/a-luigitemp-bbbb" rfl rfl (by decide)

/-- A stripped subdirectory `lstripSlash x ++ "-"` never starts with
`/`. -/
theorem lstrip_dash_head (x : String) :
    (lstripSlash x ++ "-").data.head? ≠ some '/' := by
  rw [String.data_append]
  rw [show (lstripSlash x).data = x.data.dropWhile (fun c => c == '/') from rfl]
  cases hd : x.data.dropWhile (fun c => c == '/') with
  | nil =>
    intro hcontra
    exact absurd (show (some '-' : Option Char) = some '/' from hcontra) (by decide)
  | cons y ys =>
    have hy : (y == '/') = false := dropWhile_head_false _ x.data y (by rw [hd]; rfl)
    simp only [List.cons_append, List.head?_cons]
    intro hcontra
    injection hcontra with hc
    rw [hc] at hy
    simp at hy

/-- The subdirectory computed by `tmppath` never starts with `/` (its
leading slashes are stripped before the `-` is appended). -/
theorem tmppath_subdir_head (path : Option String) (s : String)
    (h : tmppath_subdir path = .ok s) : s.data.head? ≠ some '/' := by
  cases path with
  | none =>
    injection h with h'
    rw [← h']
    intro hcontra
    cases hcontra
  | some p =>
    have hEq : tmppath_subdir (some p) =
        (if pyStartswith p "/tmp/" = true then
          Except.ok (lstripSlash ⟨p.data.drop 4⟩ ++ "-")
        else do
          let parsed ← urlparse p
          pure (lstripSlash parsed.path ++ "-")) := rfl
    rw [hEq] at h
    by_cases hst : pyStartswith p "/tmp/" = true
    · rw [if_pos hst] at h
      injection h with h'
      rw [← h']
      exact lstrip_dash_head _
    · rw [if_neg hst] at h
      cases hu : urlparse p with
      | error e =>
        rw [hu] at h
        exact Except.noConfusion h
      | ok parsed =>
        rw [hu] at h
        injection h with h'
        rw [← h']
        exact lstrip_dash_head _

/-- Joining a user component that does not start with `/` onto a
subdirectory that does not start with `/` yields a path that does not
start with `/`. -/
theorem posixJoin_user_head (user s : String) (hu : user.data.head? ≠ some '/')
    (hs : s.data.head? ≠ some '/') :
    (posixJoin user s).data.head? ≠ some '/' := by
  unfold posixJoin
  rw [if_neg (show ¬(s.data.head? == some '/') = true from by simpa using hs)]
  by_cases hB : (user.data.isEmpty || user.data.getLast? == some '/') = true
  · rw [if_pos hB]
    show (user.data ++ s.data).head? ≠ some '/'
    cases huser : user.data with
    | nil => simpa using hs
    | cons c cs =>
      rw [List.head?_append_of_ne_nil _ (by simp)]
      rw [huser] at hu
      exact hu
  · rw [if_neg hB]
    show (user.data ++ '/' :: s.data).head? ≠ some '/'
    have hne : user.data ≠ [] := by
      intro hcontra
      apply hB
      simp [hcontra]
    rw [List.head?_append_of_ne_nil _ hne]
    exact hu

/-- Lemma: `posixJoin` never discards a base whose joined part is not
absolute: the base is a prefix of the join, and a separator follows it
when the base is nonempty without a trailing slash. -/
theorem posixJoin_keeps_base (b arg : String) (harg : arg.data.head? ≠ some '/') :
    b.data <+: (posixJoin b arg).data ∧
      (b.data ≠ [] → b.data.getLast? ≠ some '/' →
        (b.data ++ ['/']) <+: (posixJoin b arg).data) := by
  unfold posixJoin
  rw [if_neg (show ¬(arg.data.head? == some '/') = true from by simpa using harg)]
  by_cases hB : (b.data.isEmpty || b.data.getLast? == some '/') = true
  · rw [if_pos hB]
    constructor
    · exact ⟨arg.data, rfl⟩
    · intro hbne hblast
      exfalso
      rcases (by simpa using hB : b.data = [] ∨ b.data.getLast? = some '/') with hc | hc
      · exact hbne hc
      · exact hblast hc
  · rw [if_neg hB]
    constructor
    · exact ⟨'/' :: arg.data, rfl⟩
    · intro _ _
      exact ⟨arg.data, by simp [List.append_assoc]⟩

/-- Claim C9 (amended): every successful `tmppath` result stays inside
its resolved base directory, provided the username does not begin with
`/`: the base directory is always a prefix of the result, and when the
base directory is nonempty and does not already end with `/`, the base
directory followed by a separator is a prefix of the result. -/
theorem tmppath_within_base (conf : hdfsConf) (path : Option String) (incl : Bool)
    (user hex b r : String) (hu : user.data.head? ≠ some '/')
    (hb : tmppath_base_dir conf path = .ok b)
    (hr : tmppath conf path incl user hex = .ok r) :
    b.data <+: r.data ∧
      (b.data ≠ [] → b.data.getLast? ≠ some '/' → (b.data ++ ['/']) <+: r.data) := by
  cases hsd : tmppath_subdir path with
  | error e =>
    have : tmppath conf path incl user hex = .error e := by
      unfold tmppath; rw [hb, hsd]; rfl
    rw [this] at hr
    exact Except.noConfusion hr
  | ok s =>
    rw [tmppath_eval conf path incl user hex b s hb hsd] at hr
    injection hr with hr'
    rw [← hr']
    have hshead : s.data.head? ≠ some '/' := tmppath_subdir_head path s hsd
    have hjhead : (if incl then posixJoin user s else s).data.head? ≠ some '/' := by
      cases incl with
      | true => exact posixJoin_user_head user s hu hshead
      | false => exact hshead
    have harg : ((if incl then posixJoin user s else s) ++ ("luigitemp-" ++ hex)).data.head? ≠
        some '/' := by
      rw [String.data_append]
      cases hjd : (if incl then posixJoin user s else s).data with
      | nil =>
        intro hcontra
        exact absurd (show (some 'l' : Option Char) = some '/' from hcontra) (by decide)
      | cons c cs =>
        rw [List.head?_append_of_ne_nil _ (by simp)]
        rw [hjd] at hjhead
        exact hjhead
    exact posixJoin_keeps_base b _ harg

/-- Counterexample to Claim C9 as literally stated: with the override
`tmp_dir = "/custom/"` (a trailing slash), the result does not begin
with the base directory followed by a path separator, because the join
adds no second separator. -/
theorem tmppath_within_base_counterexample :
    tmppath_base_dir ⟨"hadoopcli", some "/custom/"⟩ none = .ok "/custom/" ∧
      tmppath ⟨"hadoopcli", some "/custom/"⟩ none false "alice" "ff00" =
        .ok "/custom/luigitemp-ff00" ∧
      ¬ (("/custom/" ++ "/" : String).data <+: ("/custom/luigitemp-ff00" : String).data) := by
  refine ⟨rfl, rfl, by decide⟩

/-- Witness for C9 at a concrete input without an override. -/
theorem tmppath_within_base_witness :
    (("/tmp" : String).data <+: ("/tmp/alice/a-luigitemp-aaaa" : String).data) ∧
      (("/tmp" : String).data ++ ['/'] <+: ("/tmp/alice/a-luigitemp-aaaa" : String).data) := by
  have h := tmppath_within_base ⟨"hadoopcli", none⟩ (some "/a") true "alice" "aaaa"
    "/tmp" "/tmp/alice/a-luigitemp-aaaa" (by decide) rfl rfl
  exact ⟨h.1, h.2 (by decide) (by decide)⟩

/-- A character list whose elements all avoid `/` also has a last
element avoiding `/`. -/
theorem getLast?_all {l : List Char} {a : Char} (hp : ∀ c ∈ l, (c == '/') = false)
    (h : l.getLast? = some a) : (a == '/') = false := by
  rcases List.mem_getLast?_eq_getLast (show a ∈ l.getLast? from h) with ⟨hne, ha⟩
  rw [ha]
  exact hp _ (List.getLast_mem hne)

theorem splitSlash_cons_slash (l : List Char) : splitSlash ('/' :: l) = [] :: splitSlash l := rfl

/-- A slash-free list is a single path component. -/
theorem splitSlash_no_slash (l : List Char) (h : ∀ c ∈ l, (c == '/') = false) :
    splitSlash l = [l] := by
  induction l with
  | nil => rfl
  | cons c rest ih =>
    have hc : (c == '/') = false := h c (List.mem_cons_self c rest)
    have hr := ih (fun x hx => h x (List.mem_cons_of_mem c hx))
    unfold splitSlash
    rw [if_neg (by simp [hc]), hr]

/-- Splitting at a separator after a slash-free head component. -/
theorem splitSlash_append_slash (a b : List Char) (ha : ∀ c ∈ a, (c == '/') = false) :
    splitSlash (a ++ '/' :: b) = a :: splitSlash b := by
  induction a with
  | nil => exact splitSlash_cons_slash b
  | cons c a' ih =>
    have hc : (c == '/') = false := ha c (List.mem_cons_self c a')
    have hr := ih (fun x hx => ha x (List.mem_cons_of_mem c hx))
    show (if (c == '/') = true then [] :: splitSlash (a' ++ '/' :: b)
        else match splitSlash (a' ++ '/' :: b) with
          | [] => [[c]]
          | h :: t => (c :: h) :: t) = (c :: a') :: splitSlash b
    rw [if_neg (by simp [hc]), hr]

/-- A doubled pair cannot sit inside a three-element list whose first
and third entries differ from the repeated element. -/
theorem no_pair_in_triple {p a b c : List Char} (h1 : a ≠ p) (h3 : c ≠ p) :
    ¬ [p, p] <:+: [a, b, c] := by
  rintro ⟨s, t, hst⟩
  rcases s with _ | ⟨x, _ | ⟨y, _ | ⟨z, s⟩⟩⟩
  · simp only [List.nil_append, List.cons_append, List.cons.injEq] at hst
    exact h1 hst.1.symm
  · simp only [List.cons_append, List.nil_append, List.cons.injEq] at hst
    exact h3 hst.2.2.1.symm
  · simp at hst
  · simp at hst

/-- A doubled pair cannot sit inside a four-element list whose first,
third and fourth entries differ from the repeated element. -/
theorem no_pair_in_quad {p a b c d : List Char} (h1 : a ≠ p) (h3 : c ≠ p) (h4 : d ≠ p) :
    ¬ [p, p] <:+: [a, b, c, d] := by
  rintro ⟨s, t, hst⟩
  rcases s with _ | ⟨x, _ | ⟨y, _ | ⟨z, _ | ⟨w, s⟩⟩⟩⟩
  · simp only [List.nil_append, List.cons_append, List.cons.injEq] at hst
    exact h1 hst.1.symm
  · simp only [List.cons_append, List.nil_append, List.cons.injEq] at hst
    exact h3 hst.2.2.1.symm
  · simp only [List.cons_append, List.nil_append, List.cons.injEq] at hst
    exact h4 hst.2.2.2.1.symm
  · simp at hst
  · simp at hst

/-- No adjacent `tmp`, `tmp` components in `/tmp/<leaf>`. -/
theorem no_doubled_tmp_flat (X : List Char) (hX : ∀ c ∈ X, (c == '/') = false)
    (hXlen : X.length ≠ 3) :
    ¬ [("tmp" : String).data, ("tmp" : String).data] <:+:
      splitSlash (("/tmp" : String).data ++ '/' :: X) := by
  have h1 : splitSlash (("/tmp" : String).data ++ '/' :: X) =
      [[], ("tmp" : String).data, X] := by
    show splitSlash ('/' :: (("tmp" : String).data ++ '/' :: X)) = _
    rw [splitSlash_cons_slash, splitSlash_append_slash _ _ (by decide),
        splitSlash_no_slash X hX]
  rw [h1]
  exact no_pair_in_triple (by decide) (fun hc => hXlen (by rw [hc]; rfl))

/-- No adjacent `tmp`, `tmp` components in `/tmp/<user>/<leaf>`. -/
theorem no_doubled_tmp_user (U X : List Char) (hU : ∀ c ∈ U, (c == '/') = false)
    (hUne : U ≠ ("tmp" : String).data) (hX : ∀ c ∈ X, (c == '/') = false)
    (hXlen : X.length ≠ 3) :
    ¬ [("tmp" : String).data, ("tmp" : String).data] <:+:
      splitSlash (("/tmp" : String).data ++ '/' :: (U ++ '/' :: X)) := by
  have h1 : splitSlash (("/tmp" : String).data ++ '/' :: (U ++ '/' :: X)) =
      [[], ("tmp" : String).data, U, X] := by
    show splitSlash ('/' :: (("tmp" : String).data ++ '/' :: (U ++ '/' :: X))) = _
    rw [splitSlash_cons_slash, splitSlash_append_slash _ _ (by decide),
        splitSlash_append_slash _ _ hU, splitSlash_no_slash X hX]
  rw [h1]
  exact no_pair_in_quad (by decide) hUne (fun hc => hXlen (by rw [hc]; rfl))

/-- Core of Claim C3: for a slash-free nonempty subdirectory stem the
final path has no adjacent `tmp`, `tmp` components. -/
theorem no_doubled_tmp_core (user hex s0 : String) (incl : Bool)
    (hu : ∀ c ∈ user.data, (c == '/') = false) (hu2 : user ≠ "tmp")
    (hh : ∀ c ∈ hex.data, (c == '/') = false)
    (hs0 : ∀ c ∈ s0.data, (c == '/') = false) (hs0ne : s0.data ≠ []) :
    ¬ [("tmp" : String).data, ("tmp" : String).data] <:+:
      splitSlash (posixJoin "/tmp"
        ((if incl then posixJoin user s0 else s0) ++ ("luigitemp-" ++ hex))).data := by
  have haddon : ∀ c ∈ ("luigitemp-" ++ hex).data, (c == '/') = false := by
    intro c hc
    rw [String.data_append] at hc
    rcases List.mem_append.mp hc with hc | hc
    · exact (by decide : ∀ c ∈ ("luigitemp-" : String).data, (c == '/') = false) c hc
    · exact hh c hc
  have hX : ∀ c ∈ s0.data ++ ("luigitemp-" ++ hex).data, (c == '/') = false := by
    intro c hc
    rcases List.mem_append.mp hc with hc | hc
    · exact hs0 c hc
    · exact haddon c hc
  have hXlen : (s0.data ++ ("luigitemp-" ++ hex).data).length ≠ 3 := by
    rw [List.length_append,
        show ("luigitemp-" ++ hex).data = ("luigitemp-" : String).data ++ hex.data from
          String.data_append _ _,
        List.length_append,
        show ("luigitemp-" : String).data.length = 10 from rfl]
    omega
  have hs0head : s0.data.head? ≠ some '/' := by
    cases hsd : s0.data with
    | nil => exact absurd hsd hs0ne
    | cons c cs =>
      have hc := hs0 c (by rw [hsd]; exact List.mem_cons_self c cs)
      simp only [List.head?_cons]
      intro hcontra
      injection hcontra with hcc
      rw [hcc] at hc
      simp at hc
  have main_flat : ∀ j : String, j.data = s0.data →
      ¬ [("tmp" : String).data, ("tmp" : String).data] <:+:
        splitSlash (posixJoin "/tmp" (j ++ ("luigitemp-" ++ hex))).data := by
    intro j hj
    have hargdata : (j ++ ("luigitemp-" ++ hex)).data =
        s0.data ++ ("luigitemp-" ++ hex).data := by
      rw [String.data_append, hj]
    have harghead : (j ++ ("luigitemp-" ++ hex)).data.head? ≠ some '/' := by
      rw [hargdata]
      cases hsd : s0.data with
      | nil => exact absurd hsd hs0ne
      | cons c cs =>
        rw [List.head?_append_of_ne_nil _ (by simp)]
        rw [hsd] at hs0head
        exact hs0head
    rw [posixJoin_sep _ _ (by decide) (by decide) harghead]
    show ¬ [("tmp" : String).data, ("tmp" : String).data] <:+:
      splitSlash (("/tmp" : String).data ++ '/' :: (j ++ ("luigitemp-" ++ hex)).data)
    rw [hargdata]
    exact no_doubled_tmp_flat _ hX hXlen
  have main_user : ∀ j : String, user.data ≠ [] →
      j.data = user.data ++ '/' :: s0.data →
      ¬ [("tmp" : String).data, ("tmp" : String).data] <:+:
        splitSlash (posixJoin "/tmp" (j ++ ("luigitemp-" ++ hex))).data := by
    intro j hune hj
    have hargdata : (j ++ ("luigitemp-" ++ hex)).data =
        user.data ++ '/' :: (s0.data ++ ("luigitemp-" ++ hex).data) := by
      rw [String.data_append, hj]
      simp [List.append_assoc]
    have harghead : (j ++ ("luigitemp-" ++ hex)).data.head? ≠ some '/' := by
      rw [hargdata]
      cases hud : user.data with
      | nil => exact absurd hud hune
      | cons c cs =>
        rw [List.head?_append_of_ne_nil _ (by simp)]
        have hc := hu c (by rw [hud]; exact List.mem_cons_self c cs)
        simp only [List.head?_cons]
        intro hcontra
        injection hcontra with hcc
        rw [hcc] at hc
        simp at hc
    rw [posixJoin_sep _ _ (by decide) (by decide) harghead]
    show ¬ [("tmp" : String).data, ("tmp" : String).data] <:+:
      splitSlash (("/tmp" : String).data ++ '/' :: (j ++ ("luigitemp-" ++ hex)).data)
    rw [hargdata]
    exact no_doubled_tmp_user user.data _ hu (fun hc => hu2 (string_eq_of_data hc)) hX hXlen
  cases incl with
  | false => exact main_flat s0 rfl
  | true =>
    cases hud : user.data with
    | nil =>
      have hj : (posixJoin user s0).data = s0.data := by
        rw [posixJoin_concat user s0 (Or.inl hud) hs0head]
        show user.data ++ s0.data = s0.data
        rw [hud]
        rfl
      exact main_flat (posixJoin user s0) hj
    | cons c cs =>
      have hulast : user.data.getLast? ≠ some '/' := by
        intro hc
        have := getLast?_all hu hc
        simp at this
      have hj : (posixJoin user s0).data = user.data ++ '/' :: s0.data := by
        rw [posixJoin_sep user s0 (by rw [hud]; simp) hulast hs0head]
      exact main_user (posixJoin user s0) (by rw [hud]; simp) hj

/-- Claim C3: for targets exactly `"/tmp"` and `"/tmp/"` with no
override, the subdirectory does not reintroduce a `tmp` component
(it is `"tmp-"` resp. `"-"`), and the produced path never contains a
doubled `tmp`, `tmp` pair of adjacent components (for a username that
has no slash and is not itself `tmp`, and a slash-free token). -/
theorem tmppath_no_doubled_tmp (cl user hex : String) (incl : Bool)
    (hu : ∀ c ∈ user.data, (c == '/') = false) (hu2 : user ≠ "tmp")
    (hh : ∀ c ∈ hex.data, (c == '/') = false) :
    (tmppath_subdir (some "/tmp") = .ok "tmp-" ∧ tmppath_subdir (some "/tmp/") = .ok "-") ∧
      ∀ p ∈ (["/tmp", "/tmp/"] : List String), ∀ r : String,
        tmppath ⟨cl, none⟩ (some p) incl user hex = .ok r →
          ¬ [("tmp" : String).data, ("tmp" : String).data] <:+: splitSlash r.data := by
  refine ⟨⟨rfl, rfl⟩, ?_⟩
  intro p hp r hr
  rcases (by simpa using hp : p = "/tmp" ∨ p = "/tmp/") with hp' | hp' <;> subst hp'
  · rw [tmppath_eval ⟨cl, none⟩ (some "/tmp") incl user hex "/tmp" "tmp-" rfl rfl] at hr
    injection hr with hr'
    rw [← hr']
    exact no_doubled_tmp_core user hex "tmp-" incl hu hu2 hh (by decide) (by decide)
  · rw [tmppath_eval ⟨cl, none⟩ (some "/tmp/") incl user hex "/tmp" "-" rfl rfl] at hr
    injection hr with hr'
    rw [← hr']
    exact no_doubled_tmp_core user hex "-" incl hu hu2 hh (by decide) (by decide)

/-- Witness for C3 at user `alice` and token `ff00` on target `/tmp`. -/
theorem tmppath_no_doubled_tmp_witness :
    ¬ [("tmp" : String).data, ("tmp" : String).data] <:+:
      splitSlash ("/tmp/alice/tmp-luigitemp-ff00" : String).data :=
  (tmppath_no_doubled_tmp "hadoopcli" "alice" "ff00" true (by decide) (by decide)
      (by decide)).2 "/tmp" (by simp) "/tmp/alice/tmp-luigitemp-ff00" rfl

/-- Witness for the amended C2 at a concrete configuration. -/
theorem tmppath_empty_vs_none_witness :
    tmppath ⟨"hadoopcli", none⟩ (some "") false "bob" "aa" ≠
      tmppath ⟨"hadoopcli", none⟩ none false "bob" "aa" :=
  (tmppath_empty_vs_none ⟨"hadoopcli", none⟩ false "bob" "aa").2.2.2
